import Mathlib

/-!
Verification of the ctypes_export plugin core (src/__init__.py).

Shallow embedding conventions:
* Type names (Python strings used as dictionary keys) are modelled as natural
  numbers; only equality of names matters to the algorithms.
* A Python dict whose keys are type names and whose values are sets is
  modelled as a list of keys (dict insertion order) together with a total
  function from names to finite sets.  Deleting a key removes it from the
  key list; the stale function value is never read again because the code
  only reads entries for live keys.
* Python set objects are modelled as Finset Nat.  The algorithms never
  depend on set iteration order (only on length, membership and removal).
* Fallible code is modelled with Except.
-/

namespace CtypesExport

/-- DefType enum from the source: the four kinds of order entries. -/
inductive DefType where
  | FULL
  | FWD_STRUCT
  | FWD_OTHER
  | PART
deriving DecidableEq

/-- The four dependency dictionaries handled by get_order and update_deps.
All four dicts always share the same key set in the source; keys holds
those keys in dict insertion order. -/
structure DepState where
  keys : List Nat
  strong_deps : Nat → Finset Nat
  weak_deps : Nat → Finset Nat
  rev_strong_deps : Nat → Finset Nat
  rev_weak_deps : Nat → Finset Nat

/-- update_deps from the source.  The four loops mutate the dictionaries in
place; the net effect of each loop is captured pointwise.  set.remove in the
source raises KeyError when the element is absent; on the states reachable by
the resolver the forward and reverse maps are mutually consistent, so remove
always succeeds and equals Finset.erase.  The final four del statements drop
the key; here the key is removed from the key list. -/
def update_deps (tname : Nat) (full_def : Bool) (st : DepState) : DepState :=
  -- for othername in list(rev_weak_deps[tname]):
  --     weak_deps[othername].remove(tname); rev_weak_deps[tname].remove(othername)
  let wd1 : Nat → Finset Nat := fun o =>
    if o ∈ st.rev_weak_deps tname then (st.weak_deps o).erase tname else st.weak_deps o
  let rwd1 : Nat → Finset Nat := Function.update st.rev_weak_deps tname ∅
  if full_def then
    -- for othername in list(weak_deps[tname]): rev_weak_deps[othername].remove(tname)
    let rwd2 : Nat → Finset Nat := fun o =>
      if o ∈ wd1 tname then (rwd1 o).erase tname else rwd1 o
    -- for othername in list(rev_strong_deps[tname]): strong_deps[othername].remove(tname)
    let sd1 : Nat → Finset Nat := fun o =>
      if o ∈ st.rev_strong_deps tname then (st.strong_deps o).erase tname else st.strong_deps o
    -- for othername in list(strong_deps[tname]): rev_strong_deps[othername].remove(tname)
    let rsd1 : Nat → Finset Nat := fun o =>
      if o ∈ sd1 tname then (st.rev_strong_deps o).erase tname else st.rev_strong_deps o
    { keys := st.keys.erase tname
      strong_deps := sd1
      weak_deps := wd1
      rev_strong_deps := rsd1
      rev_weak_deps := rwd2 }
  else
    { st with weak_deps := wd1, rev_weak_deps := rwd1 }

/-- The six-component priority score computed for forward-declaration
candidates in get_order. -/
structure Score where
  is_structunion : Bool
  ready_amt : Nat
  rwd_count : Nat
  sd_count : Nat
  rsd_count : Nat
  wd_count : Nat
deriving DecidableEq

/-- The ready_amt accumulation in get_order: ready starts at 0 and is
replaced whenever it is 0 or the new count is smaller.  On resolver states
every name in rev_weak_deps[tname] has a nonempty weak set (it contains
tname), so the source loop computes exactly the minimum of those counts,
and 0 when rev_weak_deps[tname] is empty. -/
def ready_amt (st : DepState) (tname : Nat) : Nat :=
  if h : ((st.rev_weak_deps tname).image fun o => (st.weak_deps o).card).Nonempty then
    (((st.rev_weak_deps tname).image fun o => (st.weak_deps o).card).min' h)
  else 0

/-- The score tuple computed per candidate in get_order.  is_structunion is
type(types[tname]) == StructureType, supplied as the function isSU. -/
def calc_score (isSU : Nat → Bool) (st : DepState) (tname : Nat) : Score :=
  { is_structunion := isSU tname
    ready_amt := ready_amt st tname
    rwd_count := (st.rev_weak_deps tname).card
    sd_count := (st.strong_deps tname).card
    rsd_count := (st.rev_strong_deps tname).card
    wd_count := (st.weak_deps tname).card }

/-- The chain of comparisons in get_order deciding whether a new candidate
score replaces the current best score (true means replace).  A tie keeps the
current best. -/
def score_better (best new : Score) : Bool :=
  if best.is_structunion = true ∧ new.is_structunion = false then false
  else if new.is_structunion = true ∧ best.is_structunion = false then true
  else if best.ready_amt ≠ 0 ∧ (new.ready_amt = 0 ∨ new.ready_amt > best.ready_amt) then false
  else if new.ready_amt ≠ 0 ∧ (best.ready_amt = 0 ∨ best.ready_amt > new.ready_amt) then true
  else if best.rwd_count > new.rwd_count then false
  else if new.rwd_count > best.rwd_count then true
  else if best.sd_count < new.sd_count then false
  else if new.sd_count < best.sd_count then true
  else if best.rsd_count < new.rsd_count then false
  else if new.rsd_count < best.rsd_count then true
  else if best.wd_count < new.wd_count then false
  else if new.wd_count < best.wd_count then true
  else false

/-- The best-candidate scan of get_order, walking the live keys in dict
order, skipping names already in predefd, seeding with the first candidate
and otherwise replacing according to score_better. -/
def find_best_go (isSU : Nat → Bool) (st : DepState) (predefd : List Nat) :
    List Nat → Option (Nat × Score) → Option (Nat × Score)
  | [], best => best
  | tname :: rest, best =>
    if tname ∈ predefd then find_best_go isSU st predefd rest best
    else
      let s := calc_score isSU st tname
      match best with
      | none => find_best_go isSU st predefd rest (some (tname, s))
      | some (b, bs) =>
        find_best_go isSU st predefd rest
          (if score_better bs s then some (tname, s) else some (b, bs))

def find_best (isSU : Nat → Bool) (st : DepState) (predefd : List Nat) :
    Option (Nat × Score) :=
  find_best_go isSU st predefd st.keys none

/-- Failure modes of get_order: outOfFuel is the artificial fuel bound of the
embedding (proved unreachable), strongCycle is the RuntimeError raised by the
source after printing predefd and, per unresolved name, its residual strong
and weak dependency sets. -/
inductive OrderErr where
  | outOfFuel
  | strongCycle (predefd : List Nat) (residual : List (Nat × Finset Nat × Finset Nat))
deriving DecidableEq

instance {ε α : Type _} [DecidableEq ε] [DecidableEq α] : DecidableEq (Except ε α) :=
  fun x y =>
    match x, y with
    | .ok a, .ok b => decidable_of_iff (a = b) (by simp)
    | .error a, .error b => decidable_of_iff (a = b) (by simp)
    | .ok _, .error _ => isFalse (by simp)
    | .error _, .ok _ => isFalse (by simp)

/-- The diagnostic printed by get_order before raising: every live key with
its residual strong and weak dependency sets. -/
def residual_info (st : DepState) : List (Nat × Finset Nat × Finset Nat) :=
  st.keys.map fun t => (t, st.strong_deps t, st.weak_deps t)

/-- The while loop of get_order.  Each pass over the live keys breaks at the
first name with no remaining dependencies (emit FULL, or PART if it was
forward-declared) or whose only dependency is a weak self-dependency (emit a
forward declaration immediately followed by PART); otherwise the scored best
candidate is forward-declared.  The fuel argument is an upper bound on loop
iterations, an artifact of the embedding. -/
def get_order_loop (isSU : Nat → Bool) :
    Nat → DepState → List Nat → List (Nat × DefType) →
    Except OrderErr (List (Nat × DefType))
  | 0, _, _, _ => .error .outOfFuel
  | fuel + 1, st, predefd, order =>
    if st.keys = [] then .ok order
    else
      match st.keys.find? fun t =>
          decide ((st.strong_deps t).card + (st.weak_deps t).card = 0) ||
          decide ((st.strong_deps t).card = 0 ∧ (st.weak_deps t).card = 1 ∧
                  t ∈ st.weak_deps t) with
      | some t =>
        if (st.strong_deps t).card + (st.weak_deps t).card = 0 then
          let dt := if t ∈ predefd then DefType.PART else DefType.FULL
          get_order_loop isSU fuel (update_deps t true st) predefd (order ++ [(t, dt)])
        else
          let dt := if isSU t then DefType.FWD_STRUCT else DefType.FWD_OTHER
          get_order_loop isSU fuel (update_deps t true st) predefd
            (order ++ [(t, dt), (t, DefType.PART)])
      | none =>
        match find_best isSU st predefd with
        | none => .error (.strongCycle predefd (residual_info st))
        | some (best, bs) =>
          let dt := if bs.is_structunion then DefType.FWD_STRUCT else DefType.FWD_OTHER
          get_order_loop isSU fuel (update_deps best false st) (predefd ++ [best])
            (order ++ [(best, dt)])

/-- get_order from the source.  The reverse dependency maps are built exactly
as in the source (rev_strong_deps[rd] collects every key tname with rd in
strong_deps[tname]); the source presumes every dependency name is itself a
key (otherwise its reverse-map construction raises KeyError).  The fuel
3 * keys.length + 1 dominates the loop measure, see get_order_loop_no_fuel. -/
def get_order (isSU : Nat → Bool) (keys : List Nat)
    (strong_deps weak_deps : Nat → Finset Nat) :
    Except OrderErr (List (Nat × DefType)) :=
  let st : DepState :=
    { keys := keys
      strong_deps := strong_deps
      weak_deps := weak_deps
      rev_strong_deps := fun x => (keys.filter fun t => decide (x ∈ strong_deps t)).toFinset
      rev_weak_deps := fun x => (keys.filter fun t => decide (x ∈ weak_deps t)).toFinset }
  get_order_loop isSU (3 * keys.length + 1) st [] []

/-! Basic equations for update_deps. -/

theorem update_deps_false_keys (tname : Nat) (st : DepState) :
    (update_deps tname false st).keys = st.keys := rfl

theorem update_deps_false_strong (tname : Nat) (st : DepState) :
    (update_deps tname false st).strong_deps = st.strong_deps := rfl

theorem update_deps_false_rev_strong (tname : Nat) (st : DepState) :
    (update_deps tname false st).rev_strong_deps = st.rev_strong_deps := rfl

theorem update_deps_false_rev_weak (tname : Nat) (st : DepState) :
    (update_deps tname false st).rev_weak_deps = Function.update st.rev_weak_deps tname ∅ := rfl

theorem update_deps_weak (tname : Nat) (b : Bool) (st : DepState) (o : Nat) :
    (update_deps tname b st).weak_deps o =
      if o ∈ st.rev_weak_deps tname then (st.weak_deps o).erase tname
      else st.weak_deps o := by
  cases b <;> rfl

theorem update_deps_true_keys (tname : Nat) (st : DepState) :
    (update_deps tname true st).keys = st.keys.erase tname := rfl

theorem update_deps_true_strong (tname : Nat) (st : DepState) (o : Nat) :
    (update_deps tname true st).strong_deps o =
      if o ∈ st.rev_strong_deps tname then (st.strong_deps o).erase tname
      else st.strong_deps o := rfl

/-- The weak sets never grow under update_deps. -/
theorem update_deps_weak_subset (tname : Nat) (b : Bool) (st : DepState) (o : Nat) :
    (update_deps tname b st).weak_deps o ⊆ st.weak_deps o := by
  rw [update_deps_weak]
  split
  · exact Finset.erase_subset _ _
  · exact Finset.Subset.refl _

/-- After update_deps tname, tname is no longer in the weak set of any name
that the reverse map listed; in particular membership of tname in any weak
set can only disappear. -/
theorem update_deps_weak_not_mem (tname : Nat) (b : Bool) (st : DepState) (o : Nat)
    (h : o ∈ st.rev_weak_deps tname) : tname ∉ (update_deps tname b st).weak_deps o := by
  rw [update_deps_weak]
  simp [h]

/-! Position of the best candidate returned by the forced-forward-declaration
scan: it is always a live, not yet forward-declared key. -/

theorem find_best_go_spec (isSU : Nat → Bool) (st : DepState) (predefd : List Nat) :
    ∀ (l : List Nat) (best : Option (Nat × Score)) (b : Nat) (s : Score),
      find_best_go isSU st predefd l best = some (b, s) →
      (b ∈ l ∧ b ∉ predefd) ∨ best = some (b, s) := by
  intro l
  induction l with
  | nil => intro best b s h; right; exact h
  | cons a rest ih =>
    intro best b s h
    rw [find_best_go] at h
    by_cases ha : a ∈ predefd
    · simp only [if_pos ha] at h
      rcases ih _ _ _ h with ⟨hm, hp⟩ | heq
      · exact Or.inl ⟨List.mem_cons_of_mem _ hm, hp⟩
      · exact Or.inr heq
    · simp only [if_neg ha] at h
      cases best with
      | none =>
        rcases ih _ _ _ h with ⟨hm, hp⟩ | heq
        · exact Or.inl ⟨List.mem_cons_of_mem _ hm, hp⟩
        · simp only [Option.some.injEq, Prod.mk.injEq] at heq
          exact Or.inl ⟨by simp [heq.1], heq.1 ▸ ha⟩
      | some p =>
        rcases ih _ _ _ h with ⟨hm, hp⟩ | heq
        · exact Or.inl ⟨List.mem_cons_of_mem _ hm, hp⟩
        · split at heq
          · simp only [Option.some.injEq, Prod.mk.injEq] at heq
            exact Or.inl ⟨by simp [heq.1], heq.1 ▸ ha⟩
          · exact Or.inr heq

theorem find_best_spec (isSU : Nat → Bool) (st : DepState) (predefd : List Nat)
    (b : Nat) (s : Score) (h : find_best isSU st predefd = some (b, s)) :
    b ∈ st.keys ∧ b ∉ predefd := by
  rcases find_best_go_spec isSU st predefd st.keys none b s h with hok | hbad
  · exact hok
  · exact absurd hbad (by simp)

/-! Termination: the loop measure 2 * live keys + live keys not yet
forward-declared strictly decreases at every loop iteration. -/

def loop_measure (st : DepState) (predefd : List Nat) : Nat :=
  2 * st.keys.length + (st.keys.filter fun t => decide (t ∉ predefd)).length

theorem length_filter_mono {l : List Nat} {p q : Nat → Bool}
    (hpq : ∀ x, q x = true → p x = true) :
    (l.filter q).length ≤ (l.filter p).length := by
  induction l with
  | nil => simp
  | cons a rest ih =>
    simp only [List.filter]
    cases hq : q a with
    | true => rw [hpq a hq]; simpa using ih
    | false =>
      cases hp : p a with
      | true => exact Nat.le_succ_of_le ih
      | false => exact ih

theorem length_filter_lt {l : List Nat} {p q : Nat → Bool}
    (hpq : ∀ x, q x = true → p x = true) {b : Nat}
    (hb : b ∈ l) (hpb : p b = true) (hqb : q b = false) :
    (l.filter q).length < (l.filter p).length := by
  induction l with
  | nil => cases hb
  | cons a rest ih =>
    simp only [List.filter]
    by_cases hab : a = b
    · subst hab
      rw [hqb, hpb]
      exact Nat.lt_succ_of_le (length_filter_mono hpq)
    · have hbr : b ∈ rest := by
        rcases List.mem_cons.mp hb with h | h
        · exact absurd h.symm hab
        · exact h
      cases hq : q a with
      | true =>
        rw [hpq a hq]
        simpa using ih hbr
      | false =>
        cases hp : p a with
        | true => exact Nat.lt_succ_of_lt (ih hbr)
        | false => exact ih hbr

theorem loop_measure_decreases_full (t : Nat) (st : DepState) (predefd : List Nat)
    (ht : t ∈ st.keys) :
    loop_measure (update_deps t true st) predefd < loop_measure st predefd := by
  unfold loop_measure
  rw [update_deps_true_keys]
  have h1 : (st.keys.erase t).length < st.keys.length := by
    rw [List.length_erase_of_mem ht]
    have : 0 < st.keys.length := List.length_pos.mpr (List.ne_nil_of_mem ht)
    omega
  have h2 : ((st.keys.erase t).filter fun x => decide (x ∉ predefd)).length ≤
      (st.keys.filter fun x => decide (x ∉ predefd)).length :=
    ((st.keys.erase_sublist t).filter _).length_le
  omega

theorem loop_measure_decreases_fwd (b : Nat) (st : DepState) (predefd : List Nat)
    (hb : b ∈ st.keys) (hbp : b ∉ predefd) :
    loop_measure (update_deps b false st) (predefd ++ [b]) < loop_measure st predefd := by
  unfold loop_measure
  rw [update_deps_false_keys]
  have h1 : (st.keys.filter fun t => decide (t ∉ predefd ++ [b])).length <
      (st.keys.filter fun t => decide (t ∉ predefd)).length := by
    refine length_filter_lt ?_ hb ?_ ?_
    · intro x hx
      simp only [decide_eq_true_eq] at hx ⊢
      intro hmem
      exact hx (List.mem_append_left _ hmem)
    · simpa using hbp
    · simp
  omega

/-- With fuel exceeding the loop measure, the loop never runs out of fuel:
it returns an order or raises the strong-cycle error. -/
theorem get_order_loop_no_fuel (isSU : Nat → Bool) :
    ∀ (fuel : Nat) (st : DepState) (predefd : List Nat) (order : List (Nat × DefType)),
      loop_measure st predefd < fuel →
      get_order_loop isSU fuel st predefd order ≠ .error .outOfFuel := by
  intro fuel
  induction fuel with
  | zero => intro st predefd order h; omega
  | succ n ih =>
    intro st predefd order hm
    rw [get_order_loop]
    split
    · simp
    · split
      · next t hfind =>
        have ht : t ∈ st.keys := List.mem_of_find?_eq_some hfind
        have hdec := loop_measure_decreases_full t st predefd ht
        split
        · exact ih _ _ _ (by omega)
        · exact ih _ _ _ (by omega)
      · split
        · simp
        · next best bs hbest =>
          obtain ⟨hbk, hbp⟩ := find_best_spec isSU st _ best bs hbest
          have hdec := loop_measure_decreases_fwd best st predefd hbk hbp
          exact ih _ _ _ (by omega)

/-- C2.  The Resolver terminates on every finite graph whose dependency sets
only mention keys of the graph: get_order either returns an order or raises
the strong-cycle error, never exhausting the iteration bound (which covers
weak-only cycles and self-referential weak dependencies as instances). -/
theorem get_order_terminates (isSU : Nat → Bool) (keys : List Nat)
    (strong_deps weak_deps : Nat → Finset Nat)
    (hwf : ∀ t ∈ keys, strong_deps t ⊆ keys.toFinset ∧ weak_deps t ⊆ keys.toFinset) :
    (∃ ord, get_order isSU keys strong_deps weak_deps = .ok ord) ∨
    (∃ p r, get_order isSU keys strong_deps weak_deps = .error (.strongCycle p r)) := by
  cases h : get_order isSU keys strong_deps weak_deps with
  | ok ord => exact Or.inl ⟨ord, rfl⟩
  | error e =>
    cases e with
    | outOfFuel =>
      exfalso
      refine get_order_loop_no_fuel isSU (3 * keys.length + 1) _ [] [] ?_ h
      unfold loop_measure
      dsimp only
      have hle : (keys.filter fun t => decide (t ∉ ([] : List Nat))).length ≤ keys.length :=
        List.length_filter_le _ _
      omega
    | strongCycle p r => exact Or.inr ⟨p, r, rfl⟩

/-- Witness for C2 at the two graphs named by the claim: a weak two-cycle
(0 weakly depends on 1 and 1 weakly depends on 0) and a weak self-dependency
(0 weakly depends on 0). -/
theorem get_order_terminates_witness :
    ((∃ ord, get_order (fun _ => true) [0, 1] (fun _ => ∅)
        (fun n => if n = 0 then {1} else if n = 1 then {0} else ∅) = .ok ord) ∨
     (∃ p r, get_order (fun _ => true) [0, 1] (fun _ => ∅)
        (fun n => if n = 0 then {1} else if n = 1 then {0} else ∅) =
          .error (.strongCycle p r))) ∧
    ((∃ ord, get_order (fun _ => true) [0] (fun _ => ∅)
        (fun n => if n = 0 then {0} else ∅) = .ok ord) ∨
     (∃ p r, get_order (fun _ => true) [0] (fun _ => ∅)
        (fun n => if n = 0 then {0} else ∅) = .error (.strongCycle p r))) :=
  ⟨get_order_terminates _ _ _ _ (by decide),
   get_order_terminates _ _ _ _ (by decide)⟩

/-- C3.  A pure strong two-cycle (0 strongly embeds 1, 1 strongly embeds 0,
no weak dependencies) is a reported fatal error: get_order raises the
strong-cycle failure carrying the unresolved names and their residual strong
and weak dependency sets, rather than looping or returning an order. -/
theorem get_order_pure_strong_cycle :
    get_order (fun _ => true) [0, 1]
        (fun n => if n = 0 then {1} else if n = 1 then {0} else ∅)
        (fun _ => ∅) =
      .error (.strongCycle [0, 1] [(0, {1}, ∅), (1, {0}, ∅)]) := by
  decide

/-! C1: topological validity of the produced order. -/

/-- A name has already received a FULL or PART entry somewhere in ord. -/
def done_in (ord : List (Nat × DefType)) (s : Nat) : Prop :=
  ∃ (j : Nat) (k : DefType), ord[j]? = some (s, k) ∧
    (k = DefType.FULL ∨ k = DefType.PART)

/-- Topological validity with respect to the initial strong dependency sets
strong0 and the initial key set keys0: every FULL or PART entry is preceded
by a FULL or PART entry for each of its initial strong dependencies that are
keys of the graph. -/
def topo_ok (strong0 : Nat → Finset Nat) (keys0 : List Nat)
    (ord : List (Nat × DefType)) : Prop :=
  ∀ (i T : Nat) (k : DefType), ord[i]? = some (T, k) →
    (k = DefType.FULL ∨ k = DefType.PART) →
    ∀ S, S ∈ strong0 T → S ∈ keys0 →
      ∃ (j : Nat), j < i ∧ ∃ (kk : DefType), ord[j]? = some (S, kk) ∧
        (kk = DefType.FULL ∨ kk = DefType.PART)

theorem getElem?_some_lt {α : Type _} {l : List α} {j : Nat} {x : α}
    (h : l[j]? = some x) : j < l.length := by
  by_contra hle
  rw [List.getElem?_eq_none (by omega)] at h
  cases h

theorem done_in_append (ord l : List (Nat × DefType)) (s : Nat)
    (h : done_in ord s) : done_in (ord ++ l) s := by
  obtain ⟨j, k, hj, hk⟩ := h
  exact ⟨j, k, by rw [List.getElem?_append_left (getElem?_some_lt hj)]; exact hj, hk⟩

/-- Appending one entry preserves topological validity, provided that when
the new entry is FULL or PART all initial strong dependencies of its name
are already done in the existing list. -/
theorem topo_ok_append_one (strong0 : Nat → Finset Nat) (keys0 : List Nat)
    (acc : List (Nat × DefType)) (T : Nat) (dt : DefType)
    (hacc : topo_ok strong0 keys0 acc)
    (hdep : (dt = DefType.FULL ∨ dt = DefType.PART) →
      ∀ S, S ∈ strong0 T → S ∈ keys0 → done_in acc S) :
    topo_ok strong0 keys0 (acc ++ [(T, dt)]) := by
  unfold topo_ok
  intro i T' k hik hk S hS hSk
  rcases Nat.lt_trichotomy i acc.length with hi | hi | hi
  · rw [List.getElem?_append_left hi] at hik
    obtain ⟨j, hj, kk, hjk, hkk⟩ := hacc i T' k hik hk S hS hSk
    exact ⟨j, hj, kk, by rw [List.getElem?_append_left (getElem?_some_lt hjk)]; exact hjk, hkk⟩
  · subst hi
    rw [List.getElem?_concat_length] at hik
    injection hik with hik
    have hT : T = T' := congrArg Prod.fst hik
    have hdt : dt = k := congrArg Prod.snd hik
    subst hT; subst hdt
    obtain ⟨j, kk, hjk, hkk⟩ := hdep hk S hS hSk
    have hjl := getElem?_some_lt hjk
    exact ⟨j, hjl, kk, by rw [List.getElem?_append_left hjl]; exact hjk, hkk⟩
  · exfalso
    have := getElem?_some_lt hik
    simp only [List.length_append, List.length_cons, List.length_nil] at this
    omega

/-- Loop invariant for C1: any run of the resolver loop that returns an
order yields a topologically valid order, given that every live key still
carries (or has already seen completed) each of its initial strong
dependencies. -/
theorem get_order_loop_topo (isSU : Nat → Bool) (strong0 : Nat → Finset Nat)
    (keys0 : List Nat) :
    ∀ (fuel : Nat) (st : DepState) (predefd : List Nat)
      (acc ord : List (Nat × DefType)),
      (∀ t ∈ st.keys, ∀ S, S ∈ strong0 t → S ∈ keys0 →
        S ∈ st.strong_deps t ∨ done_in acc S) →
      topo_ok strong0 keys0 acc →
      get_order_loop isSU fuel st predefd acc = .ok ord →
      topo_ok strong0 keys0 ord := by
  intro fuel
  induction fuel with
  | zero =>
    intro st predefd acc ord _ _ h
    exact absurd h (by rw [get_order_loop]; simp)
  | succ n ih =>
    intro st predefd acc ord hinva hinvb h
    rw [get_order_loop] at h
    split at h
    · injection h with h; subst h; exact hinvb
    · split at h
      · next t hfind =>
        have ht : t ∈ st.keys := List.mem_of_find?_eq_some hfind
        split at h
        · -- branch 1: no remaining dependencies, emit FULL or PART
          next hzero =>
          have hsd : st.strong_deps t = ∅ := Finset.card_eq_zero.mp (by omega)
          set dt := if t ∈ predefd then DefType.PART else DefType.FULL with hdt
          have hdtok : dt = DefType.FULL ∨ dt = DefType.PART := by
            rw [hdt]; split
            · exact Or.inr rfl
            · exact Or.inl rfl
          have hdone : done_in (acc ++ [(t, dt)]) t :=
            ⟨acc.length, dt, by rw [List.getElem?_concat_length], hdtok⟩
          refine ih _ _ _ _ ?_ ?_ h
          · intro t' ht' S hS hSk
            have ht'm : t' ∈ st.keys := (st.keys.erase_sublist t).mem ht'
            rcases hinva t' ht'm S hS hSk with hmem | hd
            · by_cases hst : S = t
              · subst hst; exact Or.inr hdone
              · left
                rw [update_deps_true_strong]
                split
                · exact Finset.mem_erase.mpr ⟨hst, hmem⟩
                · exact hmem
            · exact Or.inr (done_in_append _ _ _ hd)
          · refine topo_ok_append_one _ _ _ _ _ hinvb ?_
            intro _ S hS hSk
            rcases hinva t ht S hS hSk with hmem | hd
            · rw [hsd] at hmem; cases hmem
            · exact hd
        · -- branch 2: only a weak self-dependency, emit FWD then PART
          next hnzero =>
          have hpred := List.find?_some hfind
          simp only [Bool.or_eq_true, decide_eq_true_eq] at hpred
          have hsd : st.strong_deps t = ∅ := by
            rcases hpred with h1 | h2
            · exact absurd h1 hnzero
            · exact Finset.card_eq_zero.mp h2.1
          set dt := if isSU t then DefType.FWD_STRUCT else DefType.FWD_OTHER with hdt
          have hdtfwd : dt = DefType.FWD_STRUCT ∨ dt = DefType.FWD_OTHER := by
            rw [hdt]; split
            · exact Or.inl rfl
            · exact Or.inr rfl
          have hdone : done_in (acc ++ [(t, dt), (t, DefType.PART)]) t := by
            refine ⟨acc.length + 1, DefType.PART, ?_, Or.inr rfl⟩
            have : acc ++ [(t, dt), (t, DefType.PART)] =
                (acc ++ [(t, dt)]) ++ [(t, DefType.PART)] := by simp
            rw [this]
            have hlen : (acc ++ [(t, dt)]).length = acc.length + 1 := by simp
            rw [← hlen, List.getElem?_concat_length]
          have hdepdone : ∀ S, S ∈ strong0 t → S ∈ keys0 → done_in acc S := by
            intro S hS hSk
            rcases hinva t ht S hS hSk with hmem | hd
            · rw [hsd] at hmem; cases hmem
            · exact hd
          refine ih _ _ _ _ ?_ ?_ h
          · intro t' ht' S hS hSk
            have ht'm : t' ∈ st.keys := (st.keys.erase_sublist t).mem ht'
            rcases hinva t' ht'm S hS hSk with hmem | hd
            · by_cases hst : S = t
              · subst hst; exact Or.inr hdone
              · left
                rw [update_deps_true_strong]
                split
                · exact Finset.mem_erase.mpr ⟨hst, hmem⟩
                · exact hmem
            · exact Or.inr (done_in_append _ _ _ hd)
          · have h1 : topo_ok strong0 keys0 (acc ++ [(t, dt)]) := by
              refine topo_ok_append_one _ _ _ _ _ hinvb ?_
              intro hk
              exfalso
              rcases hdtfwd with he | he <;> rw [he] at hk <;>
                rcases hk with hk | hk <;> cases hk
            have h2 : topo_ok strong0 keys0 ((acc ++ [(t, dt)]) ++ [(t, DefType.PART)]) := by
              refine topo_ok_append_one _ _ _ _ _ h1 ?_
              intro _ S hS hSk
              exact done_in_append _ _ _ (hdepdone S hS hSk)
            have heq : (acc ++ [(t, dt)]) ++ [(t, DefType.PART)] =
                acc ++ [(t, dt), (t, DefType.PART)] := by simp
            rw [heq] at h2
            exact h2
      · split at h
        · exact absurd h (by simp)
        · -- forced forward declaration of the best candidate
          next best bs hbest =>
          refine ih _ _ _ _ ?_ ?_ h
          · intro t' ht' S hS hSk
            rw [update_deps_false_keys] at ht'
            rcases hinva t' ht' S hS hSk with hmem | hd
            · left; rw [update_deps_false_strong]; exact hmem
            · exact Or.inr (done_in_append _ _ _ hd)
          · refine topo_ok_append_one _ _ _ _ _ hinvb ?_
            intro hk
            exfalso
            have hfwd : (if bs.is_structunion then DefType.FWD_STRUCT else DefType.FWD_OTHER) =
                DefType.FWD_STRUCT ∨
                (if bs.is_structunion then DefType.FWD_STRUCT else DefType.FWD_OTHER) =
                DefType.FWD_OTHER := by
              split
              · exact Or.inl rfl
              · exact Or.inr rfl
            rcases hfwd with he | he <;> rw [he] at hk <;>
              rcases hk with hk | hk <;> cases hk

/-- C1.  Topological validity of the resolver output: whenever get_order
returns normally, every FULL or PART entry for a name T is strictly preceded
by a FULL or PART entry for each name in the initial strong dependency set
of T that is a key of the input graph. -/
theorem get_order_topological (isSU : Nat → Bool) (keys : List Nat)
    (strong_deps weak_deps : Nat → Finset Nat) (ord : List (Nat × DefType))
    (h : get_order isSU keys strong_deps weak_deps = .ok ord) :
    topo_ok strong_deps keys ord := by
  rw [get_order] at h
  refine get_order_loop_topo isSU strong_deps keys (3 * keys.length + 1)
    _ [] [] ord ?_ ?_ h
  · intro t _ S hS _
    exact Or.inl hS
  · unfold topo_ok
    intro i T k hik
    simp at hik

/-- Witness for C1 at a concrete graph where 0 strongly depends on 1: the
returned order is [(1, FULL), (0, FULL)] and the theorem produces the
earlier FULL or PART entry for the dependency 1. -/
theorem get_order_topological_witness :
    ∃ (j : Nat), j < 1 ∧ ∃ (kk : DefType),
      [(1, DefType.FULL), (0, DefType.FULL)][j]? = some (1, kk) ∧
      (kk = DefType.FULL ∨ kk = DefType.PART) :=
  get_order_topological (fun _ => true) [0, 1]
    (fun n => if n = 0 then {1} else ∅) (fun _ => ∅)
    [(1, DefType.FULL), (0, DefType.FULL)] (by decide)
    1 0 DefType.FULL rfl (Or.inl rfl) 1 (by decide) (by decide)

/-! C4: coverage and completion of the produced order. -/

/-- The sequence of definition kinds a name receives in an order, in
emission order. -/
def entries_for (ord : List (Nat × DefType)) (t : Nat) : List DefType :=
  (ord.filter fun e => decide (e.1 = t)).map fun e => e.2

theorem entries_for_append (a b : List (Nat × DefType)) (t : Nat) :
    entries_for (a ++ b) t = entries_for a t ++ entries_for b t := by
  simp [entries_for]

theorem entries_for_single_self (t : Nat) (k : DefType) :
    entries_for [(t, k)] t = [k] := by
  simp [entries_for]

theorem entries_for_single_ne {a t : Nat} (h : a ≠ t) (k : DefType) :
    entries_for [(a, k)] t = [] := by
  simp [entries_for, h]

theorem entries_for_pair_self (t : Nat) (k1 k2 : DefType) :
    entries_for [(t, k1), (t, k2)] t = [k1, k2] := by
  simp [entries_for]

theorem entries_for_pair_ne {a t : Nat} (h : a ≠ t) (k1 k2 : DefType) :
    entries_for [(a, k1), (a, k2)] t = [] := by
  simp [entries_for, h]

/-- Membership in a reverse weak set survives update_deps for names other
than the updated one. -/
theorem update_deps_rev_weak_mem (tname : Nat) (b : Bool) (st : DepState)
    (o t' : Nat) (hne : t' ≠ tname) (ho : o ≠ tname)
    (h : t' ∈ st.rev_weak_deps o) :
    t' ∈ (update_deps tname b st).rev_weak_deps o := by
  cases b with
  | false =>
    rw [update_deps_false_rev_weak, Function.update_apply, if_neg ho]
    exact h
  | true =>
    show t' ∈ (if o ∈ (update_deps tname true st).weak_deps tname then
        (Function.update st.rev_weak_deps tname ∅ o).erase tname
      else Function.update st.rev_weak_deps tname ∅ o)
    rw [Function.update_apply, if_neg ho]
    split
    · exact Finset.mem_erase.mpr ⟨hne, h⟩
    · exact h

/-- The reverse-weak consistency direction used by the resolver invariants:
after any update, a weak edge still implies the corresponding reverse-weak
edge, for live keys. -/
theorem update_deps_preserves_cw (tname : Nat) (b : Bool) (st : DepState)
    (hcw : ∀ t o, t ∈ st.keys → o ∈ st.weak_deps t → t ∈ st.rev_weak_deps o)
    (t o : Nat) (ht : t ∈ (update_deps tname b st).keys) (htn : t ≠ tname)
    (ho : o ∈ (update_deps tname b st).weak_deps t) :
    t ∈ (update_deps tname b st).rev_weak_deps o := by
  have htk : t ∈ st.keys := by
    cases b with
    | false => rw [update_deps_false_keys] at ht; exact ht
    | true => rw [update_deps_true_keys] at ht; exact List.mem_of_mem_erase ht
  have hos : o ∈ st.weak_deps t := update_deps_weak_subset tname b st t ho
  have hrw : t ∈ st.rev_weak_deps o := hcw t o htk hos
  have honot : o ≠ tname := by
    intro heq
    subst heq
    rw [update_deps_weak] at ho
    by_cases hmem : t ∈ st.rev_weak_deps o
    · rw [if_pos hmem] at ho
      exact absurd rfl (Finset.ne_of_mem_erase ho)
    · exact hmem hrw
  exact update_deps_rev_weak_mem tname b st o t htn honot hrw

/-- Loop invariant for C4: characterizes the complete multiset of entries a
name can receive.  Every name that leaves the graph has either a single FULL
entry or one forward entry followed by one PART entry; live names have at
most the single forward entry recorded in predefd. -/
theorem get_order_loop_entries (isSU : Nat → Bool) (keys0 : List Nat) :
    ∀ (fuel : Nat) (st : DepState) (predefd : List Nat)
      (acc ord : List (Nat × DefType)),
      st.keys.Nodup →
      (∀ t o, t ∈ st.keys → o ∈ st.weak_deps t → t ∈ st.rev_weak_deps o) →
      (∀ t, t ∈ predefd → t ∉ st.weak_deps t) →
      (∀ t, t ∈ st.keys → t ∈ predefd → ∃ f,
        (f = DefType.FWD_STRUCT ∨ f = DefType.FWD_OTHER) ∧ entries_for acc t = [f]) →
      (∀ t, t ∈ st.keys → t ∉ predefd → entries_for acc t = []) →
      (∀ t, t ∉ st.keys → entries_for acc t = [] ∨ entries_for acc t = [DefType.FULL] ∨
        ∃ f, (f = DefType.FWD_STRUCT ∨ f = DefType.FWD_OTHER) ∧
          entries_for acc t = [f, DefType.PART]) →
      (∀ t, t ∈ keys0 → t ∈ st.keys ∨ entries_for acc t ≠ []) →
      get_order_loop isSU fuel st predefd acc = .ok ord →
      (∀ t, t ∈ keys0 → entries_for ord t ≠ []) ∧
      (∀ t, entries_for ord t = [] ∨ entries_for ord t = [DefType.FULL] ∨
        ∃ f, (f = DefType.FWD_STRUCT ∨ f = DefType.FWD_OTHER) ∧
          entries_for ord t = [f, DefType.PART]) := by
  intro fuel
  induction fuel with
  | zero =>
    intro st predefd acc ord _ _ _ _ _ _ _ h
    exact absurd h (by rw [get_order_loop]; simp)
  | succ n ih =>
    intro st predefd acc ord hnd hcw hw he1 he1b he2 he3 h
    rw [get_order_loop] at h
    split at h
    · next hk =>
      injection h with h
      subst h
      constructor
      · intro t ht
        rcases he3 t ht with hmem | hne
        · rw [hk] at hmem; cases hmem
        · exact hne
      · intro t
        exact he2 t (by rw [hk]; simp)
    · split at h
      · next t hfind =>
        have ht : t ∈ st.keys := List.mem_of_find?_eq_some hfind
        split at h
        · -- branch 1: FULL, or PART when already forward-declared
          next hzero =>
          set dt := if t ∈ predefd then DefType.PART else DefType.FULL with hdt
          refine ih (update_deps t true st) predefd (acc ++ [(t, dt)]) ord
            ?_ ?_ ?_ ?_ ?_ ?_ ?_ h
          · rw [update_deps_true_keys]; exact hnd.erase t
          · intro t' o ht' ho
            have htn : t' ≠ t := by
              rw [update_deps_true_keys] at ht'
              exact ((hnd.mem_erase_iff).mp ht').1
            exact update_deps_preserves_cw t true st hcw t' o ht' htn ho
          · intro t' hp
            intro hmem
            exact hw t' hp (update_deps_weak_subset t true st t' hmem)
          · intro t' ht' hp
            have htn : t' ≠ t := by
              rw [update_deps_true_keys] at ht'
              exact ((hnd.mem_erase_iff).mp ht').1
            obtain ⟨f, hf, hef⟩ := he1 t'
              (by rw [update_deps_true_keys] at ht'; exact List.mem_of_mem_erase ht') hp
            exact ⟨f, hf, by rw [entries_for_append, hef,
              entries_for_single_ne (fun hx => htn hx.symm)]; simp⟩
          · intro t' ht' hp
            have htn : t' ≠ t := by
              rw [update_deps_true_keys] at ht'
              exact ((hnd.mem_erase_iff).mp ht').1
            have := he1b t'
              (by rw [update_deps_true_keys] at ht'; exact List.mem_of_mem_erase ht') hp
            rw [entries_for_append, this, entries_for_single_ne (fun hx => htn hx.symm)]
            simp
          · intro t' ht'
            rw [update_deps_true_keys] at ht'
            by_cases htt : t' = t
            · subst htt
              by_cases hp : t' ∈ predefd
              · obtain ⟨f, hf, hef⟩ := he1 t' ht hp
                refine Or.inr (Or.inr ⟨f, hf, ?_⟩)
                rw [entries_for_append, hef, entries_for_single_self]
                rw [hdt, if_pos hp]
                simp
              · have hef := he1b t' ht hp
                refine Or.inr (Or.inl ?_)
                rw [entries_for_append, hef, entries_for_single_self]
                rw [hdt, if_neg hp]
                simp
            · have htk : t' ∉ st.keys := fun hmem =>
                ht' ((List.mem_erase_of_ne htt).mpr hmem)
              rcases he2 t' htk with h0 | h0 | ⟨f, hf, h0⟩
              · exact Or.inl (by rw [entries_for_append, h0,
                  entries_for_single_ne (fun hx => htt hx.symm)]; simp)
              · exact Or.inr (Or.inl (by rw [entries_for_append, h0,
                  entries_for_single_ne (fun hx => htt hx.symm)]; simp))
              · exact Or.inr (Or.inr ⟨f, hf, by rw [entries_for_append, h0,
                  entries_for_single_ne (fun hx => htt hx.symm)]; simp⟩)
          · intro t' ht'
            rcases he3 t' ht' with hmem | hne
            · by_cases htt : t' = t
              · subst htt
                refine Or.inr ?_
                rw [entries_for_append, entries_for_single_self]
                simp
              · refine Or.inl ?_
                rw [update_deps_true_keys]
                exact (List.mem_erase_of_ne htt).mpr hmem
            · refine Or.inr ?_
              rw [entries_for_append]
              intro hbad
              exact hne (List.append_eq_nil.mp hbad).1
        · -- branch 2: weak self-cycle, forward declaration plus PART at once
          next hnzero =>
          have hpred := List.find?_some hfind
          simp only [Bool.or_eq_true, decide_eq_true_eq] at hpred
          have hself : t ∈ st.weak_deps t := by
            rcases hpred with h1 | h2
            · exact absurd h1 hnzero
            · exact h2.2.2
          have htnp : t ∉ predefd := fun hp => hw t hp hself
          set dt := if isSU t then DefType.FWD_STRUCT else DefType.FWD_OTHER with hdt
          have hdtfwd : dt = DefType.FWD_STRUCT ∨ dt = DefType.FWD_OTHER := by
            rw [hdt]; split
            · exact Or.inl rfl
            · exact Or.inr rfl
          refine ih (update_deps t true st) predefd
            (acc ++ [(t, dt), (t, DefType.PART)]) ord ?_ ?_ ?_ ?_ ?_ ?_ ?_ h
          · rw [update_deps_true_keys]; exact hnd.erase t
          · intro t' o ht' ho
            have htn : t' ≠ t := by
              rw [update_deps_true_keys] at ht'
              exact ((hnd.mem_erase_iff).mp ht').1
            exact update_deps_preserves_cw t true st hcw t' o ht' htn ho
          · intro t' hp hmem
            exact hw t' hp (update_deps_weak_subset t true st t' hmem)
          · intro t' ht' hp
            have htn : t' ≠ t := by
              rw [update_deps_true_keys] at ht'
              exact ((hnd.mem_erase_iff).mp ht').1
            obtain ⟨f, hf, hef⟩ := he1 t'
              (by rw [update_deps_true_keys] at ht'; exact List.mem_of_mem_erase ht') hp
            exact ⟨f, hf, by rw [entries_for_append, hef,
              entries_for_pair_ne (fun hx => htn hx.symm)]; simp⟩
          · intro t' ht' hp
            have htn : t' ≠ t := by
              rw [update_deps_true_keys] at ht'
              exact ((hnd.mem_erase_iff).mp ht').1
            have := he1b t'
              (by rw [update_deps_true_keys] at ht'; exact List.mem_of_mem_erase ht') hp
            rw [entries_for_append, this, entries_for_pair_ne (fun hx => htn hx.symm)]
            simp
          · intro t' ht'
            rw [update_deps_true_keys] at ht'
            by_cases htt : t' = t
            · subst htt
              have hef := he1b t' ht htnp
              refine Or.inr (Or.inr ⟨dt, hdtfwd, ?_⟩)
              rw [entries_for_append, hef, entries_for_pair_self]
              simp
            · have htk : t' ∉ st.keys := fun hmem =>
                ht' ((List.mem_erase_of_ne htt).mpr hmem)
              rcases he2 t' htk with h0 | h0 | ⟨f, hf, h0⟩
              · exact Or.inl (by rw [entries_for_append, h0,
                  entries_for_pair_ne (fun hx => htt hx.symm)]; simp)
              · exact Or.inr (Or.inl (by rw [entries_for_append, h0,
                  entries_for_pair_ne (fun hx => htt hx.symm)]; simp))
              · exact Or.inr (Or.inr ⟨f, hf, by rw [entries_for_append, h0,
                  entries_for_pair_ne (fun hx => htt hx.symm)]; simp⟩)
          · intro t' ht'
            rcases he3 t' ht' with hmem | hne
            · by_cases htt : t' = t
              · subst htt
                refine Or.inr ?_
                rw [entries_for_append, entries_for_pair_self]
                simp
              · refine Or.inl ?_
                rw [update_deps_true_keys]
                exact (List.mem_erase_of_ne htt).mpr hmem
            · refine Or.inr ?_
              rw [entries_for_append]
              intro hbad
              exact hne (List.append_eq_nil.mp hbad).1
      · split at h
        · exact absurd h (by simp)
        · -- forced forward declaration of the scored best candidate
          next best bs hbest =>
          obtain ⟨hbk, hbp⟩ := find_best_spec isSU st predefd best bs hbest
          set dtf := if bs.is_structunion then DefType.FWD_STRUCT
            else DefType.FWD_OTHER with hdtf
          have hdtffwd : dtf = DefType.FWD_STRUCT ∨ dtf = DefType.FWD_OTHER := by
            rw [hdtf]; split
            · exact Or.inl rfl
            · exact Or.inr rfl
          refine ih (update_deps best false st) (predefd ++ [best])
            (acc ++ [(best, dtf)]) ord ?_ ?_ ?_ ?_ ?_ ?_ ?_ h
          · rw [update_deps_false_keys]; exact hnd
          · intro t' o ht' ho
            by_cases htn : t' = best
            · subst htn
              rw [update_deps_false_keys] at ht'
              have hos : o ∈ st.weak_deps t' := update_deps_weak_subset t' false st t' ho
              have hrw : t' ∈ st.rev_weak_deps o := hcw t' o ht' hos
              have honot : o ≠ t' := by
                intro heq
                rw [update_deps_weak] at ho
                rw [heq] at ho hrw
                by_cases hmem : t' ∈ st.rev_weak_deps t'
                · rw [if_pos hmem] at ho
                  exact absurd rfl (Finset.ne_of_mem_erase ho)
                · exact hmem hrw
              rw [update_deps_false_rev_weak, Function.update_apply, if_neg honot]
              exact hrw
            · exact update_deps_preserves_cw best false st hcw t' o ht' htn ho
          · intro t' hp
            rcases List.mem_append.mp hp with hp | hp
            · intro hmem
              exact hw t' hp (update_deps_weak_subset best false st t' hmem)
            · have hb : t' = best := by simpa using hp
              subst hb
              intro hmem
              rw [update_deps_weak] at hmem
              by_cases hrw : t' ∈ st.rev_weak_deps t'
              · rw [if_pos hrw] at hmem
                exact absurd rfl (Finset.ne_of_mem_erase hmem)
              · rw [if_neg hrw] at hmem
                exact hrw (hcw t' t' hbk hmem)
          · intro t' ht' hp
            rw [update_deps_false_keys] at ht'
            rcases List.mem_append.mp hp with hp | hp
            · have htn : t' ≠ best := fun heq => hbp (heq ▸ hp)
              obtain ⟨f, hf, hef⟩ := he1 t' ht' hp
              exact ⟨f, hf, by rw [entries_for_append, hef,
                entries_for_single_ne (fun hx => htn hx.symm)]; simp⟩
            · have hb : t' = best := by simpa using hp
              subst hb
              have hef := he1b t' ht' hbp
              exact ⟨dtf, hdtffwd, by
                rw [entries_for_append, hef, entries_for_single_self]; simp⟩
          · intro t' ht' hp
            rw [update_deps_false_keys] at ht'
            have hpold : t' ∉ predefd := fun hx => hp (List.mem_append_left _ hx)
            have htn : t' ≠ best := fun heq => hp (by rw [heq]; simp)
            have hef := he1b t' ht' hpold
            rw [entries_for_append, hef, entries_for_single_ne (fun hx => htn hx.symm)]
            simp
          · intro t' ht'
            rw [update_deps_false_keys] at ht'
            have htn : t' ≠ best := fun heq => ht' (heq ▸ hbk)
            rcases he2 t' ht' with h0 | h0 | ⟨f, hf, h0⟩
            · exact Or.inl (by rw [entries_for_append, h0,
                entries_for_single_ne (fun hx => htn hx.symm)]; simp)
            · exact Or.inr (Or.inl (by rw [entries_for_append, h0,
                entries_for_single_ne (fun hx => htn hx.symm)]; simp))
            · exact Or.inr (Or.inr ⟨f, hf, by rw [entries_for_append, h0,
                entries_for_single_ne (fun hx => htn hx.symm)]; simp⟩)
          · intro t' ht'
            rcases he3 t' ht' with hmem | hne
            · exact Or.inl (by rw [update_deps_false_keys]; exact hmem)
            · refine Or.inr ?_
              rw [entries_for_append]
              intro hbad
              exact hne (List.append_eq_nil.mp hbad).1

/-- C4.  Coverage and completion: whenever get_order returns normally (on a
graph with distinct keys), every input name appears at least once in the
order; a name receiving a FWD_STRUCT or FWD_OTHER entry receives exactly
that forward entry followed by exactly one later PART entry and never a FULL
entry; and a name whose first entry is FULL receives only that FULL entry,
in particular never a FWD_STRUCT or FWD_OTHER entry. -/
theorem get_order_coverage (isSU : Nat → Bool) (keys : List Nat)
    (strong_deps weak_deps : Nat → Finset Nat) (ord : List (Nat × DefType))
    (hnd : keys.Nodup)
    (h : get_order isSU keys strong_deps weak_deps = .ok ord) :
    (∀ t, t ∈ keys → entries_for ord t ≠ []) ∧
    (∀ t f, (f = DefType.FWD_STRUCT ∨ f = DefType.FWD_OTHER) →
      f ∈ entries_for ord t → entries_for ord t = [f, DefType.PART]) ∧
    (∀ t, (entries_for ord t).head? = some DefType.FULL →
      entries_for ord t = [DefType.FULL]) := by
  rw [get_order] at h
  have hmain := get_order_loop_entries isSU keys (3 * keys.length + 1)
    _ [] [] ord hnd
    (by
      intro t o ht ho
      exact List.mem_toFinset.mpr (List.mem_filter.mpr ⟨ht, by simpa using ho⟩))
    (by intro t hp; cases hp)
    (by intro t _ hp; cases hp)
    (by intro t _ _; simp [entries_for])
    (by intro t _; exact Or.inl (by simp [entries_for]))
    (by intro t ht; exact Or.inl ht)
    h
  obtain ⟨hf1, hf2⟩ := hmain
  refine ⟨hf1, ?_, ?_⟩
  · intro t f hf hmem
    rcases hf2 t with h0 | h0 | ⟨f0, hf0, h0⟩
    · rw [h0] at hmem; cases hmem
    · rw [h0] at hmem
      have : f = DefType.FULL := by simpa using hmem
      rcases hf with hh | hh <;> rw [hh] at this <;> cases this
    · rw [h0] at hmem ⊢
      rcases List.mem_pair.mp hmem with he | he
      · rw [he]
      · exfalso
        rcases hf with hh | hh <;> rw [hh] at he <;> cases he
  · intro t hhead
    rcases hf2 t with h0 | h0 | ⟨f0, hf0, h0⟩
    · rw [h0] at hhead; cases hhead
    · exact h0
    · rw [h0] at hhead
      simp only [List.head?_cons, Option.some.injEq] at hhead
      exfalso
      rcases hf0 with hh | hh <;> rw [hh] at hhead <;> cases hhead

/-- Witness for C4 at the weak two-cycle graph: the produced order is
[(0, FWD_STRUCT), (1, FULL), (0, PART)]; name 0 receives its forward entry
followed by exactly one PART, and name 1 appears. -/
theorem get_order_coverage_witness :
    (entries_for [(0, DefType.FWD_STRUCT), (1, DefType.FULL), (0, DefType.PART)] 0 =
      [DefType.FWD_STRUCT, DefType.PART]) ∧
    (entries_for [(0, DefType.FWD_STRUCT), (1, DefType.FULL), (0, DefType.PART)] 1 ≠ []) := by
  have hc := get_order_coverage (fun _ => true) [0, 1] (fun _ => ∅)
    (fun n => if n = 0 then {1} else if n = 1 then {0} else ∅)
    [(0, DefType.FWD_STRUCT), (1, DefType.FULL), (0, DefType.PART)]
    (by decide) (by decide)
  exact ⟨hc.2.1 0 DefType.FWD_STRUCT (Or.inl rfl) (by decide), hc.1 1 (by decide)⟩

/-! C7: effect of a forced forward declaration, update_deps with full_def
false. -/

/-- Total number of remaining weak edges: sum over live keys of the size of
their weak dependency sets. -/
def weak_edge_count (st : DepState) : Nat :=
  (st.keys.map fun t => (st.weak_deps t).card).sum

/-- The resolver state of a pure strong two-cycle (0 strongly embeds 1 and
1 strongly embeds 0, no weak edges), with its reverse maps as get_order
builds them.  This is exactly the state in which get_order performs its
first forced forward declaration on that input, choosing name 0. -/
def pure_strong_pair : DepState :=
  { keys := [0, 1]
    strong_deps := fun n => if n = 0 then {1} else if n = 1 then {0} else ∅
    weak_deps := fun _ => ∅
    rev_strong_deps := fun n => if n = 0 then {1} else if n = 1 then {0} else ∅
    rev_weak_deps := fun _ => ∅ }

/-- Counterexample for C7: in the pure strong two-cycle state the resolver
takes a forced forward-declaration step (no name is immediately resolvable
and the scan picks name 0), yet update_deps 0 false does not strictly reduce
the total weak-edge count: no name weakly depends on 0, so the count stays
at 0. -/
theorem update_deps_fwd_no_strict_decrease :
    (pure_strong_pair.keys.find? (fun t =>
        decide ((pure_strong_pair.strong_deps t).card +
          (pure_strong_pair.weak_deps t).card = 0) ||
        decide ((pure_strong_pair.strong_deps t).card = 0 ∧
          (pure_strong_pair.weak_deps t).card = 1 ∧
          t ∈ pure_strong_pair.weak_deps t)) = none) ∧
    find_best (fun _ => true) pure_strong_pair [] =
      some (0, ⟨true, 0, 0, 1, 1, 0⟩) ∧
    ¬ (weak_edge_count (update_deps 0 false pure_strong_pair) <
       weak_edge_count pure_strong_pair) := by
  decide

/-- C7 amended.  A forced forward-declaration step removes the declared name
T from the weak set of every name that weakly depended on T (including T
itself when T weakly self-depends, which is the only way the weak set of T
can change), leaves every strong set, every reverse-strong set and the key
set unchanged, empties the reverse-weak set of T leaving other reverse-weak
sets unchanged, and never increases the weak-edge count; the decrease is
strict exactly when some live name weakly depended on T (not in general). -/
theorem update_deps_fwd_frame (st : DepState) (T : Nat) :
    (update_deps T false st).strong_deps = st.strong_deps ∧
    (update_deps T false st).rev_strong_deps = st.rev_strong_deps ∧
    (update_deps T false st).keys = st.keys ∧
    (∀ o, o ∈ st.rev_weak_deps T →
      (update_deps T false st).weak_deps o = (st.weak_deps o).erase T) ∧
    (∀ o, o ∉ st.rev_weak_deps T →
      (update_deps T false st).weak_deps o = st.weak_deps o) ∧
    (update_deps T false st).rev_weak_deps T = ∅ ∧
    (∀ o, o ≠ T → (update_deps T false st).rev_weak_deps o = st.rev_weak_deps o) ∧
    weak_edge_count (update_deps T false st) ≤ weak_edge_count st ∧
    ((∃ o, o ∈ st.keys ∧ o ∈ st.rev_weak_deps T ∧ T ∈ st.weak_deps o) →
      weak_edge_count (update_deps T false st) < weak_edge_count st) := by
  refine ⟨rfl, rfl, rfl, ?_, ?_, ?_, ?_, ?_, ?_⟩
  · intro o ho
    rw [update_deps_weak, if_pos ho]
  · intro o ho
    rw [update_deps_weak, if_neg ho]
  · rw [update_deps_false_rev_weak, Function.update_apply, if_pos rfl]
  · intro o ho
    rw [update_deps_false_rev_weak, Function.update_apply, if_neg ho]
  · unfold weak_edge_count
    rw [update_deps_false_keys]
    refine List.sum_le_sum ?_
    intro t _
    exact Finset.card_le_card (update_deps_weak_subset T false st t)
  · rintro ⟨o, hok, horw, hoT⟩
    unfold weak_edge_count
    rw [update_deps_false_keys]
    refine List.sum_lt_sum _ _ ?_ ⟨o, hok, ?_⟩
    · intro t _
      exact Finset.card_le_card (update_deps_weak_subset T false st t)
    · rw [update_deps_weak, if_pos horw]
      exact Finset.card_erase_lt_of_mem hoT

/-- Witness for the amended C7 at a concrete state where 0 weakly depends
on 1: forcing a forward declaration of 1 strictly reduces the weak-edge
count. -/
theorem update_deps_fwd_frame_witness :
    weak_edge_count (update_deps 1 false
      { keys := [0, 1]
        strong_deps := fun _ => ∅
        weak_deps := fun n => if n = 0 then {1} else ∅
        rev_strong_deps := fun _ => ∅
        rev_weak_deps := fun n => if n = 1 then {0} else ∅ }) <
    weak_edge_count
      { keys := [0, 1]
        strong_deps := fun _ => ∅
        weak_deps := fun n => if n = 0 then {1} else ∅
        rev_strong_deps := fun _ => ∅
        rev_weak_deps := fun n => if n = 1 then {0} else ∅ } :=
  (update_deps_fwd_frame
    { keys := [0, 1]
      strong_deps := fun _ => ∅
      weak_deps := fun n => if n = 0 then {1} else ∅
      rev_strong_deps := fun _ => ∅
      rev_weak_deps := fun n => if n = 1 then {0} else ∅ } 1).2.2.2.2.2.2.2.2
    ⟨0, by decide, by decide, by decide⟩

/-! C5: struct padding and struct item coverage. -/

/-- Size of the padding entry the struct_padding loop emits at offset when
allsz = end - offset bytes remain.  The source tests offset & 0x3 and
offset & 0x7, which equal offset % 4 and offset % 8 on nonnegative
integers, and rounds with (end - offset) & ~0xF, which equals
allsz - allsz % 0x10. -/
def pad_size (offset allsz : Nat) : Nat :=
  if allsz < 4 ∨ offset % 4 ≠ 0 then 1
  else if allsz < 8 ∨ offset % 8 ≠ 0 then 4
  else if allsz < 0x10 then 8
  else allsz - allsz % 0x10

theorem pad_size_pos (offset allsz : Nat) (h : 0 < allsz) :
    0 < pad_size offset allsz := by
  unfold pad_size
  split
  · omega
  · split
    · omega
    · split
      · omega
      · next h1 h2 h3 => omega

theorem pad_size_le (offset allsz : Nat) (h : 0 < allsz) :
    pad_size offset allsz ≤ allsz := by
  unfold pad_size
  split
  · omega
  · next h1 =>
    split
    · omega
    · split
      · next h2 h3 => omega
      · omega

/-- The while loop of struct_padding, producing (offset, size) pairs.  The
fuel is an embedding artifact bounding the iteration count; every emitted
entry is at least one byte wide, so fuel equal to the remaining byte count
suffices (struct_padding below supplies it). -/
def struct_padding_go : Nat → Nat → Nat → List (Nat × Nat)
  | 0, _, _ => []
  | fuel + 1, theEnd, offset =>
    if offset < theEnd then
      (offset, pad_size offset (theEnd - offset)) ::
        struct_padding_go fuel theEnd (offset + pad_size offset (theEnd - offset))
    else []

/-- struct_padding from the source: the sequence of (offset, size) padding
entries emitted to fill size bytes starting at offset. -/
def struct_padding (offset size : Nat) : List (Nat × Nat) :=
  struct_padding_go size (offset + size) offset

/-- The ranges are consecutive and exactly cover [a, b): each entry starts
where the previous one ended, with no overlap and no gap. -/
def contiguous : List (Nat × Nat) → Nat → Nat → Prop
  | [], a, b => a = b
  | (o, s) :: rest, a, b => o = a ∧ contiguous rest (a + s) b

theorem contiguous_le : ∀ (l : List (Nat × Nat)) (a b : Nat),
    contiguous l a b → a ≤ b := by
  intro l
  induction l with
  | nil => intro a b h; exact Nat.le_of_eq h
  | cons p rest ih =>
    intro a b h
    obtain ⟨o, s⟩ := p
    obtain ⟨h1, h2⟩ := h
    have := ih (a + s) b h2
    omega

theorem contiguous_sum : ∀ (l : List (Nat × Nat)) (a b : Nat),
    contiguous l a b → (l.map fun p => p.2).sum = b - a := by
  intro l
  induction l with
  | nil => intro a b h; rw [h]; simp
  | cons p rest ih =>
    intro a b h
    obtain ⟨o, s⟩ := p
    obtain ⟨h1, h2⟩ := h
    have hle := contiguous_le rest (a + s) b h2
    have := ih (a + s) b h2
    simp only [List.map_cons, List.sum_cons, this]
    omega

theorem contiguous_append (l1 l2 : List (Nat × Nat)) (a c b : Nat)
    (h1 : contiguous l1 a c) (h2 : contiguous l2 c b) :
    contiguous (l1 ++ l2) a b := by
  induction l1 generalizing a with
  | nil => rw [h1]; exact h2
  | cons p rest ih =>
    obtain ⟨o, s⟩ := p
    obtain ⟨ho, hrest⟩ := h1
    exact ⟨ho, ih (a + s) hrest⟩

/-- With enough fuel (at least the remaining byte count) the padding loop
exactly covers [offset, theEnd). -/
theorem struct_padding_go_contig :
    ∀ (fuel theEnd offset : Nat), theEnd - offset ≤ fuel → offset ≤ theEnd →
      contiguous (struct_padding_go fuel theEnd offset) offset theEnd := by
  intro fuel
  induction fuel with
  | zero =>
    intro theEnd offset h1 h2
    rw [struct_padding_go]
    show offset = theEnd
    omega
  | succ n ih =>
    intro theEnd offset h1 h2
    rw [struct_padding_go]
    by_cases h : offset < theEnd
    · rw [if_pos h]
      have hpos := pad_size_pos offset (theEnd - offset) (by omega)
      have hle := pad_size_le offset (theEnd - offset) (by omega)
      exact ⟨rfl, ih theEnd (offset + pad_size offset (theEnd - offset))
        (by omega) (by omega)⟩
    · rw [if_neg h]
      show offset = theEnd
      omega

theorem struct_padding_contig (offset size : Nat) :
    contiguous (struct_padding offset size) offset (offset + size) :=
  struct_padding_go_contig size (offset + size) offset (by omega) (by omega)

/-- A structure member as read by get_struct_items: declared offset and the
width of its type. -/
structure Member where
  offset : Nat
  width : Nat
deriving DecidableEq

/-- An emitted line of a structure body: a real member or a padding entry,
with the byte range it occupies. -/
inductive StructItem where
  | pad (offset : Nat) (size : Nat)
  | mem (offset : Nat) (width : Nat)
deriving DecidableEq

def item_range : StructItem → Nat × Nat
  | .pad o s => (o, s)
  | .mem o w => (o, w)

/-- The member loop of get_struct_items with its running byte cursor.  A
member whose offset lies below the cursor is skipped (the source treats
non-monotonic offsets as a recoverable anomaly); otherwise the gap up to the
member offset is filled by struct_padding, the member is emitted and the
cursor advances by its width.  After the last member the tail up to the
declared width is padded the same way. -/
def get_struct_items_go (width : Nat) : Nat → List Member → List StructItem
  | offset, [] =>
    if offset < width then
      (struct_padding offset (width - offset)).map fun p => StructItem.pad p.1 p.2
    else []
  | offset, m :: rest =>
    if offset > m.offset then get_struct_items_go width offset rest
    else
      (if offset < m.offset then
        (struct_padding offset (m.offset - offset)).map fun p => StructItem.pad p.1 p.2
      else []) ++
      (StructItem.mem m.offset m.width :: get_struct_items_go width (m.offset + m.width) rest)

/-- get_struct_items from the source, starting at byte cursor 0. -/
def get_struct_items (members : List Member) (width : Nat) : List StructItem :=
  get_struct_items_go width 0 members

theorem contiguous_map_pad : ∀ (l : List (Nat × Nat)) (a b : Nat),
    contiguous l a b →
    contiguous ((l.map fun p => StructItem.pad p.1 p.2).map item_range) a b := by
  intro l
  induction l with
  | nil => intro a b h; exact h
  | cons p rest ih =>
    intro a b h
    obtain ⟨o, s⟩ := p
    obtain ⟨h1, h2⟩ := h
    exact ⟨h1, ih (a + s) b h2⟩

/-- The emitted member and padding ranges of get_struct_items exactly cover
[cursor, width), for members that all fit inside the declared width. -/
theorem get_struct_items_go_contig (width : Nat) :
    ∀ (ms : List Member) (offset : Nat), offset ≤ width →
      (∀ m ∈ ms, m.offset + m.width ≤ width) →
      contiguous ((get_struct_items_go width offset ms).map item_range) offset width := by
  intro ms
  induction ms with
  | nil =>
    intro offset h1 _
    rw [get_struct_items_go]
    by_cases h : offset < width
    · rw [if_pos h]
      have hc := struct_padding_contig offset (width - offset)
      have h3 : offset + (width - offset) = width := by omega
      rw [h3] at hc
      exact contiguous_map_pad _ _ _ hc
    · rw [if_neg h]
      show offset = width
      omega
  | cons m rest ih =>
    intro offset h1 h2
    rw [get_struct_items_go]
    by_cases hskip : offset > m.offset
    · rw [if_pos hskip]
      exact ih offset h1 fun x hx => h2 x (List.mem_cons_of_mem _ hx)
    · rw [if_neg hskip]
      have hm : m.offset + m.width ≤ width := h2 m (List.mem_cons_self _ _)
      rw [List.map_append]
      refine contiguous_append _ _ offset m.offset width ?_ ?_
      · by_cases hlt : offset < m.offset
        · rw [if_pos hlt]
          have hc := struct_padding_contig offset (m.offset - offset)
          have h3 : offset + (m.offset - offset) = m.offset := by omega
          rw [h3] at hc
          exact contiguous_map_pad _ _ _ hc
        · rw [if_neg hlt]
          show offset = m.offset
          omega
      · exact ⟨rfl, ih (m.offset + m.width) hm
          fun x hx => h2 x (List.mem_cons_of_mem _ hx)⟩

/-- C5.  Struct padding coverage: struct_padding emits consecutive
non-overlapping entries starting at offset whose widths sum to exactly
size; for a struct whose members have non-decreasing offsets and fit within
the declared width, the member and padding ranges emitted by
get_struct_items exactly cover [0, width); and for a width-8 struct with a
single 1-byte member at offset 0 the padding is three 1-byte entries at
offsets 1, 2, 3 followed by one 4-byte entry at offset 4, totalling 7
bytes. -/
theorem struct_padding_coverage :
    (∀ offset size, contiguous (struct_padding offset size) offset (offset + size)) ∧
    (∀ offset size, ((struct_padding offset size).map fun p => p.2).sum = size) ∧
    (∀ (ms : List Member) (width : Nat),
      List.Chain' (fun a b => a.offset ≤ b.offset) ms →
      (∀ m ∈ ms, m.offset + m.width ≤ width) →
      contiguous ((get_struct_items ms width).map item_range) 0 width) ∧
    struct_padding 1 7 = [(1, 1), (2, 1), (3, 1), (4, 4)] ∧
    get_struct_items [⟨0, 1⟩] 8 =
      [StructItem.mem 0 1, StructItem.pad 1 1, StructItem.pad 2 1,
       StructItem.pad 3 1, StructItem.pad 4 4] := by
  refine ⟨struct_padding_contig, ?_, ?_, by decide, by decide⟩
  · intro offset size
    have := contiguous_sum _ _ _ (struct_padding_contig offset size)
    omega
  · intro ms width _ hfit
    exact get_struct_items_go_contig width ms 0 (Nat.zero_le _) hfit

/-- Witness for C5 at the width-8 struct with one 1-byte member at offset
0: both side conditions hold and the coverage conclusion applies. -/
theorem struct_padding_coverage_witness :
    contiguous ((get_struct_items [⟨0, 1⟩] 8).map item_range) 0 8 ∧
    ((struct_padding 1 7).map fun p => p.2).sum = 7 :=
  ⟨struct_padding_coverage.2.2.1 [⟨0, 1⟩] 8 (List.chain'_singleton _) (by decide),
   struct_padding_coverage.2.1 1 7⟩

/-! C8: the dependency classifier get_type_deps. -/

/-- The Binary Ninja type node kinds consumed by get_type_deps.  Each node
carries the name under which it is registered (None for anonymous nodes);
composite kinds carry their child nodes (struct members, array element,
pointer target, function return value and parameters).  A
NamedTypeReferenceType carries the referenced name. -/
inductive TypeNode where
  | ArrayType (registered_name : Option Nat) (children : List TypeNode)
  | BoolType (registered_name : Option Nat)
  | CharType (registered_name : Option Nat)
  | EnumerationType (registered_name : Option Nat)
  | FloatType (registered_name : Option Nat)
  | FunctionType (registered_name : Option Nat) (children : List TypeNode)
  | IntegerType (registered_name : Option Nat)
  | NamedTypeReferenceType (name : Nat)
  | PointerType (registered_name : Option Nat) (children : List TypeNode)
  | StructureType (registered_name : Option Nat) (children : List TypeNode)
  | VoidType (registered_name : Option Nat)
  | WideCharType (registered_name : Option Nat)

/-- Recording one dependency name: weak below a Pointer/Function parent,
strong otherwise (first component strong set, second weak set). -/
def add_dep (ptrlike : Bool) (n : Nat) (acc : Finset Nat × Finset Nat) :
    Finset Nat × Finset Nat :=
  if ptrlike then (acc.1, insert n acc.2) else (insert n acc.1, acc.2)

/-- Merging the dependency sets of an unnamed composite child: below a
Pointer/Function parent both its strong and weak names become weak,
otherwise they merge componentwise. -/
def merge_child (ptrlike : Bool) (cd acc : Finset Nat × Finset Nat) :
    Finset Nat × Finset Nat :=
  if ptrlike then (acc.1, acc.2 ∪ (cd.1 ∪ cd.2)) else (acc.1 ∪ cd.1, acc.2 ∪ cd.2)

mutual
/-- get_type_deps from the source (its tname and gt parameters are unused by
its body and omitted here).  Returns the (strong, weak) dependency name
sets of a node. -/
def get_type_deps : TypeNode → Finset Nat × Finset Nat
  | .ArrayType _ children => get_type_deps_children false children
  | .FunctionType _ children => get_type_deps_children true children
  | .PointerType _ children => get_type_deps_children true children
  | .StructureType _ children => get_type_deps_children false children
  | .NamedTypeReferenceType n => ({n}, ∅)
  | .BoolType _ => (∅, ∅)
  | .CharType _ => (∅, ∅)
  | .EnumerationType _ => (∅, ∅)
  | .FloatType _ => (∅, ∅)
  | .IntegerType _ => (∅, ∅)
  | .VoidType _ => (∅, ∅)
  | .WideCharType _ => (∅, ∅)

/-- The child loop of get_type_deps; ptrlike is true when the parent node is
a FunctionType or PointerType.  A NamedTypeReferenceType child contributes
its name; a child registered under a name contributes that name; unnamed
base-kind children (Bool, Char, Enumeration, Float, Integer, Void,
WideChar) contribute nothing; unnamed composite children are recursed
into. -/
def get_type_deps_children (ptrlike : Bool) : List TypeNode → Finset Nat × Finset Nat
  | [] => (∅, ∅)
  | .NamedTypeReferenceType n :: rest =>
    add_dep ptrlike n (get_type_deps_children ptrlike rest)
  | .ArrayType (some n) _ :: rest =>
    add_dep ptrlike n (get_type_deps_children ptrlike rest)
  | .ArrayType none cs :: rest =>
    merge_child ptrlike (get_type_deps (.ArrayType none cs))
      (get_type_deps_children ptrlike rest)
  | .FunctionType (some n) _ :: rest =>
    add_dep ptrlike n (get_type_deps_children ptrlike rest)
  | .FunctionType none cs :: rest =>
    merge_child ptrlike (get_type_deps (.FunctionType none cs))
      (get_type_deps_children ptrlike rest)
  | .PointerType (some n) _ :: rest =>
    add_dep ptrlike n (get_type_deps_children ptrlike rest)
  | .PointerType none cs :: rest =>
    merge_child ptrlike (get_type_deps (.PointerType none cs))
      (get_type_deps_children ptrlike rest)
  | .StructureType (some n) _ :: rest =>
    add_dep ptrlike n (get_type_deps_children ptrlike rest)
  | .StructureType none cs :: rest =>
    merge_child ptrlike (get_type_deps (.StructureType none cs))
      (get_type_deps_children ptrlike rest)
  | .BoolType (some n) :: rest =>
    add_dep ptrlike n (get_type_deps_children ptrlike rest)
  | .BoolType none :: rest => get_type_deps_children ptrlike rest
  | .CharType (some n) :: rest =>
    add_dep ptrlike n (get_type_deps_children ptrlike rest)
  | .CharType none :: rest => get_type_deps_children ptrlike rest
  | .EnumerationType (some n) :: rest =>
    add_dep ptrlike n (get_type_deps_children ptrlike rest)
  | .EnumerationType none :: rest => get_type_deps_children ptrlike rest
  | .FloatType (some n) :: rest =>
    add_dep ptrlike n (get_type_deps_children ptrlike rest)
  | .FloatType none :: rest => get_type_deps_children ptrlike rest
  | .IntegerType (some n) :: rest =>
    add_dep ptrlike n (get_type_deps_children ptrlike rest)
  | .IntegerType none :: rest => get_type_deps_children ptrlike rest
  | .VoidType (some n) :: rest =>
    add_dep ptrlike n (get_type_deps_children ptrlike rest)
  | .VoidType none :: rest => get_type_deps_children ptrlike rest
  | .WideCharType (some n) :: rest =>
    add_dep ptrlike n (get_type_deps_children ptrlike rest)
  | .WideCharType none :: rest => get_type_deps_children ptrlike rest
end

/-- Below a Pointer or Function parent, nothing is ever added to the strong
set. -/
theorem get_type_deps_children_strong_empty :
    ∀ cs : List TypeNode, (get_type_deps_children true cs).1 = ∅ := by
  intro cs
  induction cs with
  | nil => rfl
  | cons d rest ih =>
    cases d with
    | NamedTypeReferenceType n => simp [get_type_deps_children, add_dep, ih]
    | ArrayType rn cs2 =>
      cases rn <;> simp [get_type_deps_children, add_dep, merge_child, ih]
    | FunctionType rn cs2 =>
      cases rn <;> simp [get_type_deps_children, add_dep, merge_child, ih]
    | PointerType rn cs2 =>
      cases rn <;> simp [get_type_deps_children, add_dep, merge_child, ih]
    | StructureType rn cs2 =>
      cases rn <;> simp [get_type_deps_children, add_dep, merge_child, ih]
    | BoolType rn => cases rn <;> simp [get_type_deps_children, add_dep, ih]
    | CharType rn => cases rn <;> simp [get_type_deps_children, add_dep, ih]
    | EnumerationType rn => cases rn <;> simp [get_type_deps_children, add_dep, ih]
    | FloatType rn => cases rn <;> simp [get_type_deps_children, add_dep, ih]
    | IntegerType rn => cases rn <;> simp [get_type_deps_children, add_dep, ih]
    | VoidType rn => cases rn <;> simp [get_type_deps_children, add_dep, ih]
    | WideCharType rn => cases rn <;> simp [get_type_deps_children, add_dep, ih]

/-- C8.  Classifier strength rules: a Pointer or Function node places every
dependency name (including those found by recursion into unnamed children)
only in the weak set, its strong set being empty, and an unnamed Pointer or
Function child of a non-pointer parent leaves the strong set of the parent
untouched; a top-level NamedTypeReferenceType yields exactly its referenced
name as the single strong dependency with no weak dependencies; and unnamed
base scalar children (Bool, Char, Integer, Float, Void, WideChar) and
unnamed Enumeration children contribute no dependency names at all. -/
theorem get_type_deps_classification :
    (∀ (rn : Option Nat) (cs : List TypeNode),
      (get_type_deps (.PointerType rn cs)).1 = ∅ ∧
      (get_type_deps (.FunctionType rn cs)).1 = ∅) ∧
    (∀ n : Nat, get_type_deps (.NamedTypeReferenceType n) = ({n}, ∅)) ∧
    (∀ (b : Bool) (cs : List TypeNode),
      get_type_deps_children b (.BoolType none :: cs) = get_type_deps_children b cs ∧
      get_type_deps_children b (.CharType none :: cs) = get_type_deps_children b cs ∧
      get_type_deps_children b (.IntegerType none :: cs) = get_type_deps_children b cs ∧
      get_type_deps_children b (.FloatType none :: cs) = get_type_deps_children b cs ∧
      get_type_deps_children b (.VoidType none :: cs) = get_type_deps_children b cs ∧
      get_type_deps_children b (.WideCharType none :: cs) = get_type_deps_children b cs ∧
      get_type_deps_children b (.EnumerationType none :: cs) = get_type_deps_children b cs) ∧
    (∀ (cs2 cs : List TypeNode),
      (get_type_deps_children false (.PointerType none cs2 :: cs)).1 =
        (get_type_deps_children false cs).1 ∧
      (get_type_deps_children false (.FunctionType none cs2 :: cs)).1 =
        (get_type_deps_children false cs).1) := by
  refine ⟨?_, fun n => rfl, ?_, ?_⟩
  · intro rn cs
    constructor
    · show (get_type_deps_children true cs).1 = ∅
      exact get_type_deps_children_strong_empty cs
    · show (get_type_deps_children true cs).1 = ∅
      exact get_type_deps_children_strong_empty cs
  · intro b cs
    refine ⟨?_, ?_, ?_, ?_, ?_, ?_, ?_⟩ <;> simp [get_type_deps_children]
  · intro cs2 cs
    constructor
    · show (merge_child false (get_type_deps (.PointerType none cs2))
        (get_type_deps_children false cs)).1 = (get_type_deps_children false cs).1
      simp [merge_child, get_type_deps, get_type_deps_children_strong_empty]
    · show (merge_child false (get_type_deps (.FunctionType none cs2))
        (get_type_deps_children false cs)).1 = (get_type_deps_children false cs).1
      simp [merge_child, get_type_deps, get_type_deps_children_strong_empty]

/-! C9: name sanitization, make_type_name. -/

/-- valid_var_letters from the source: ASCII letters, ASCII digits and the
underscore (string.ascii_letters + string.digits + underscore). -/
def valid_var_letter (c : Char) : Bool :=
  c.isAlpha || c.isDigit || c = '_'

/-- Whether a name starts with two underscores (Python startswith of a
double underscore). -/
def starts_double_underscore : List Char → Bool
  | '_' :: '_' :: _ => true
  | _ => false

/-- make_type_name from the source, on strings as lists of characters (the
source prefix parameter is called pfx here, prefix being reserved in Lean):
every character outside the valid alphabet becomes an underscore, the
caller prefix is prepended, and a prefixed name that starts with a double
underscore (which the target language reserves for mangling) gets the
escape marker _q prepended. -/
def make_type_name (name pfx : List Char) : List Char :=
  let sanitized := name.map fun x => if valid_var_letter x then x else '_'
  let prefixed := pfx ++ sanitized
  if starts_double_underscore prefixed then '_' :: 'q' :: prefixed else prefixed

/-- C9.  make_type_name replaces every character outside [A-Za-z0-9_] with
an underscore and prepends the prefix; the result never begins with two
underscores; and the escape marker _q is prepended exactly when the
prefixed sanitized name would begin with two underscores. -/
theorem make_type_name_guard (name pfx : List Char) :
    (make_type_name name pfx =
        pfx ++ name.map (fun x => if valid_var_letter x then x else '_') ∨
      make_type_name name pfx =
        '_' :: 'q' :: (pfx ++ name.map fun x => if valid_var_letter x then x else '_')) ∧
    starts_double_underscore (make_type_name name pfx) = false ∧
    (make_type_name name pfx =
        '_' :: 'q' :: (pfx ++ name.map fun x => if valid_var_letter x then x else '_') ↔
      starts_double_underscore
        (pfx ++ name.map fun x => if valid_var_letter x then x else '_') = true) := by
  unfold make_type_name
  by_cases h : starts_double_underscore
      (pfx ++ name.map fun x => if valid_var_letter x then x else '_') = true
  · rw [if_pos h]
    refine ⟨Or.inr rfl, rfl, ?_⟩
    exact ⟨fun _ => h, fun _ => rfl⟩
  · rw [if_neg h]
    refine ⟨Or.inl rfl, by simpa using h, ?_⟩
    constructor
    · intro heq
      exfalso
      have := congrArg List.length heq
      simp at this
      omega
    · intro hh
      exact absurd hh h

/-! C10: union items and the trailing padding member. -/

/-- A line of a union body: a member of the given width, or the trailing
padding member, a byte array whose recorded length is the width written in
its ctypes expression. -/
inductive UnionItem where
  | member (width : Nat)
  | pad (width : Nat)
deriving DecidableEq

/-- The maximum member width exactly as the source loop accumulates it. -/
def union_maxlen (memberWidths : List Nat) : Nat :=
  memberWidths.foldl (fun a b => if b > a then b else a) 0

/-- get_union_items from the source, tracking member widths only: one line
per member while accumulating the maximum member width; afterwards, when
the maximum exceeds the declared width a non-fatal warning is printed
(returned here as the Bool), and when the maximum is strictly below the
declared width one pad line with expression ctypes.c_uint8 * width — the
full declared width — is appended. -/
def get_union_items (memberWidths : List Nat) (width : Nat) :
    List UnionItem × Bool :=
  let loop := memberWidths.foldl
    (fun (p : Nat × List UnionItem) mw =>
      (if mw > p.1 then mw else p.1, p.2 ++ [UnionItem.member mw]))
    (0, [])
  let warned := decide (loop.1 > width)
  let items := if loop.1 < width then loop.2 ++ [UnionItem.pad width] else loop.2
  (items, warned)

theorem get_union_items_loop (memberWidths : List Nat) :
    ∀ (a : Nat) (acc : List UnionItem),
      memberWidths.foldl
        (fun (p : Nat × List UnionItem) mw =>
          (if mw > p.1 then mw else p.1, p.2 ++ [UnionItem.member mw])) (a, acc) =
      (memberWidths.foldl (fun x b => if b > x then b else x) a,
       acc ++ memberWidths.map UnionItem.member) := by
  induction memberWidths with
  | nil => intro a acc; simp
  | cons mw rest ih =>
    intro a acc
    simp only [List.foldl_cons, List.map_cons]
    rw [ih]
    simp

/-- C10.  Union trailing padding: when the declared width strictly exceeds
the maximum member width, get_union_items emits every member followed by
exactly one pad member recording the full declared width (not the
difference); when the maximum member width is at least the declared width,
no pad is appended; the warning flag is raised exactly when the maximum
strictly exceeds the declared width while every member is still emitted.
Concretely, one 2-byte member in an 8-byte union yields a pad of width 8. -/
theorem get_union_items_padding (memberWidths : List Nat) (width : Nat) :
    (union_maxlen memberWidths < width →
      (get_union_items memberWidths width).1 =
        memberWidths.map UnionItem.member ++ [UnionItem.pad width]) ∧
    (¬ union_maxlen memberWidths < width →
      (get_union_items memberWidths width).1 = memberWidths.map UnionItem.member) ∧
    (get_union_items memberWidths width).2 =
      decide (union_maxlen memberWidths > width) ∧
    get_union_items [2] 8 = ([UnionItem.member 2, UnionItem.pad 8], false) := by
  unfold get_union_items union_maxlen
  rw [get_union_items_loop memberWidths 0 []]
  dsimp only
  refine ⟨?_, ?_, rfl, by decide⟩
  · intro h
    rw [if_pos h]
    simp
  · intro h
    rw [if_neg h]
    simp

/-- Witness for C10 at one 2-byte member in an 8-byte union: the pad member
records the full width 8. -/
theorem get_union_items_padding_witness :
    (get_union_items [2] 8).1 = [UnionItem.member 2, UnionItem.pad 8] :=
  ((get_union_items_padding [2] 8).1 (by decide)).trans (by decide)

/-! C6: the selected type lookup and missing-type behavior. -/

/-- The two lookup channels of a BinaryView as read by get_type and
get_type_dbg: get_type_by_name, and debug_info.get_types_by_name returning
(parser, type) pairs. -/
structure BinaryView (α : Type) where
  types : Nat → Option α
  debug_types : Nat → List (Nat × α)

/-- get_type from the source: bv.get_type_by_name. -/
def get_type {α : Type} (bv : BinaryView α) (typename : Nat) : Option α :=
  bv.types typename

/-- get_type_dbg from the source: looks the name up among the debug-info
types; when no debug parser provides it, it falls back to the full get_type
lookup (the source comment says: try falling back to the rest of the
types); when several parsers provide it, a warning is printed and the first
result is taken. -/
def get_type_dbg {α : Type} (bv : BinaryView α) (typename : Nat) : Option α :=
  match bv.debug_types typename with
  | [] => get_type bv typename
  | r :: _ => some r.2

/-- The lookup phase of export_types: each requested name is resolved with
the selected lookup gt; a None result prints an error, shows a message box
naming the type, and raises KeyError carrying that name, aborting the whole
export. -/
def export_lookup {α : Type} (gt : Nat → Option α) :
    List Nat → Except Nat (List (Nat × α))
  | [] => .ok []
  | n :: rest =>
    match gt n with
    | none => .error n
    | some t =>
      match export_lookup gt rest with
      | .error e => .error e
      | .ok l => .ok ((n, t) :: l)

/-- A view in which name 0 is absent from debug info but present among the
general types. -/
def bv_widen : BinaryView Nat :=
  { types := fun n => if n = 0 then some 42 else none
    debug_types := fun _ => [] }

/-- Counterexample for C6: with debug-info-only lookup selected, a name
absent from debug info does not abort the export — get_type_dbg silently
widens the scope to the general type table and the export succeeds with the
widened result. -/
theorem get_type_dbg_widens :
    bv_widen.debug_types 0 = [] ∧
    export_lookup (fun n => get_type_dbg bv_widen n) [0] = .ok [(0, 42)] ∧
    ¬ (bv_widen.debug_types 0 = [] → get_type_dbg bv_widen 0 = none) :=
  ⟨rfl, by decide, fun h => absurd (h rfl) (by decide)⟩

theorem export_lookup_error {α : Type} (gt : Nat → Option α) :
    ∀ (names : List Nat) (m : Nat),
      export_lookup gt names = .error m → gt m = none ∧ m ∈ names := by
  intro names
  induction names with
  | nil => intro m h; cases h
  | cons a rest ih =>
    intro m h
    rw [export_lookup] at h
    cases hg : gt a with
    | none =>
      rw [hg] at h
      injection h with h
      subst h
      exact ⟨hg, List.mem_cons_self _ _⟩
    | some t =>
      rw [hg] at h
      cases he : export_lookup gt rest with
      | error e =>
        rw [he] at h
        injection h with h
        subst h
        obtain ⟨h1, h2⟩ := ih _ he
        exact ⟨h1, List.mem_cons_of_mem _ h2⟩
      | ok l => rw [he] at h; cases h

/-- Converse fatality direction: when some requested name resolves to None
under the selected lookup, the export lookup loop cannot succeed — it
aborts with an error carrying a name the lookup could not resolve. -/
theorem export_lookup_missing {α : Type} (gt : Nat → Option α) :
    ∀ (names : List Nat), (∃ n2, n2 ∈ names ∧ gt n2 = none) →
      ∃ m, export_lookup gt names = .error m ∧ gt m = none ∧ m ∈ names := by
  intro names
  induction names with
  | nil =>
    rintro ⟨n2, hn2, _⟩
    cases hn2
  | cons a rest ih =>
    rintro ⟨n2, hn2, hg2⟩
    cases hg : gt a with
    | none =>
      refine ⟨a, ?_, hg, List.mem_cons_self _ _⟩
      rw [export_lookup, hg]
    | some t =>
      have hn2r : n2 ∈ rest := by
        rcases List.mem_cons.mp hn2 with he | he
        · rw [he, hg] at hg2; cases hg2
        · exact he
      obtain ⟨m, hm, hgm, hmm⟩ := ih ⟨n2, hn2r, hg2⟩
      refine ⟨m, ?_, hgm, List.mem_cons_of_mem _ hmm⟩
      rw [export_lookup, hg, hm]

/-- C6 amended.  When the debug-info-only lookup is selected and a name is
absent from debug info, get_type_dbg falls back to the general lookup
rather than failing; the export aborts with an error naming the missing
type exactly when the selected lookup chain (including that fallback)
yields nothing: every abort names a requested name the lookup could not
resolve, and any requested name the lookup cannot resolve forces such an
abort. -/
theorem get_type_dbg_fallback {α : Type} (bv : BinaryView α) (n : Nat) :
    (bv.debug_types n = [] → get_type_dbg bv n = get_type bv n) ∧
    (get_type_dbg bv n = none → bv.debug_types n = [] ∧ bv.types n = none) ∧
    (∀ (names : List Nat) (m : Nat) (gt : Nat → Option α),
      export_lookup gt names = .error m → gt m = none ∧ m ∈ names) ∧
    (∀ (names : List Nat) (gt : Nat → Option α),
      (∃ n2, n2 ∈ names ∧ gt n2 = none) →
      ∃ m, export_lookup gt names = .error m ∧ gt m = none ∧ m ∈ names) := by
  refine ⟨?_, ?_, fun names m gt h => export_lookup_error gt names m h,
    fun names gt h => export_lookup_missing gt names h⟩
  · intro h
    unfold get_type_dbg
    rw [h]
  · intro h
    unfold get_type_dbg at h
    cases hd : bv.debug_types n with
    | nil =>
      rw [hd] at h
      exact ⟨rfl, h⟩
    | cons r rest =>
      rw [hd] at h
      cases h

/-- Witness for the amended C6: a name absent from both channels makes the
lookup fail; the export lookup errors with exactly the unresolvable name;
and a requested unresolvable name forces the export lookup to abort. -/
theorem get_type_dbg_fallback_witness :
    (bv_widen.debug_types 1 = [] ∧ bv_widen.types 1 = none) ∧
    ((fun _ => (none : Option Nat)) 5 = none ∧ 5 ∈ [5]) ∧
    (∃ m, export_lookup (fun _ => (none : Option Nat)) [5] = .error m ∧
      (fun _ => (none : Option Nat)) m = none ∧ m ∈ [5]) :=
  ⟨(get_type_dbg_fallback bv_widen 1).2.1 (by decide),
   (get_type_dbg_fallback bv_widen 1).2.2.1 [5] 5 (fun _ => none) (by decide),
   (get_type_dbg_fallback bv_widen 1).2.2.2 [5] (fun _ => none) ⟨5, by decide, rfl⟩⟩

end CtypesExport
